import Mathlib

/-!
Verification of the xv6-riscv write-ahead log (`kernel/log.c`).

Shallow embedding: disk blocks are a map from absolute block number to an
abstract payload (`Nat`); the on-disk log-header block (block `logStart`)
is kept decoded as the list of its first-`n` block-number entries, since
`read_head`/`write_head` only ever transfer the first `n` entries and the
remaining array slots are stale.  Machine ints that the code keeps
non-negative by protocol are modelled as `Nat`; `outstanding`, which C
declares `int` and decrements freely, is `Int`.  `panic` is modelled as
`Option.none`.
-/

namespace XV6Log

/-- Pointwise update of a total map, used to model a single block write. -/
def upd (f : Nat → Nat) (k v : Nat) : Nat → Nat :=
  fun x => if x = k then v else f x

/-- The persistent disk state seen by the log: the decoded header block
(the meaningful first-`n` block numbers, `count = hdr.length`) plus the
payload of every other block, addressed by absolute block number.
Mirrors `struct logheader { int n; int block[LOGSIZE]; }` at block
`log.start`, with only the first `n` entries meaningful. -/
structure Disk where
  hdr : List Nat
  blocks : Nat → Nat

/-- Phase 1 worker, from `write_log` (log.c:196-209): for `tail` ranging
over the logged block list, copy the live cache payload of block
`lh[tail]` to on-disk log slot `start + tail + 1`.  `cache b` is the
payload `bread(dev, b)` returns for a cached (pinned, dirty) buffer. -/
def writeLogFrom (start : Nat) (cache : Nat → Nat) (bl : Nat → Nat)
    (tail : Nat) : List Nat → (Nat → Nat)
  | [] => bl
  | b :: rest =>
      writeLogFrom start cache (upd bl (start + tail + 1) (cache b)) (tail + 1) rest

/-- Function `write_log`: copy modified blocks from cache to the on-disk log slots. -/
def write_log (start : Nat) (cache : Nat → Nat) (lh : List Nat) (bl : Nat → Nat) :
    Nat → Nat :=
  writeLogFrom start cache bl 0 lh

/-- Install worker, from `install_trans` (log.c:75-90): for `tail` ranging
over the logged block list, copy on-disk log slot `start + tail + 1` to
home block `lh[tail]`.  Reads are sequential: a later read sees earlier
writes, as in the C loop. -/
def installFrom (start : Nat) (bl : Nat → Nat) (tail : Nat) :
    List Nat → (Nat → Nat)
  | [] => bl
  | b :: rest =>
      installFrom start (upd bl b (bl (start + tail + 1))) (tail + 1) rest

/-- Function `install_trans` on the block map: copy committed blocks from the log
region to their home locations, directed by the in-memory header `lh`. -/
def install_trans (start : Nat) (lh : List Nat) (bl : Nat → Nat) : Nat → Nat :=
  installFrom start bl 0 lh

/-- Function `recover_from_log` (log.c:123-130): read the on-disk header, run the
install pass over whatever it lists, then clear the header on disk
(`log.lh.n = 0; write_head()`). -/
def recover_from_log (start : Nat) (d : Disk) : Disk :=
  { hdr := [], blocks := install_trans start d.hdr d.blocks }

/-- Function `commit` (log.c:219-229): no-op when no blocks are logged; otherwise
phase 1 `write_log`, phase 2 `write_head` (the real commit), phase 3
`install_trans`, phase 4 clear-and-`write_head`, in that order.  `lh` is
the in-memory header `log.lh`, `cache` the live buffer payloads. -/
def commit (start : Nat) (lh : List Nat) (cache : Nat → Nat) (d : Disk) : Disk :=
  if lh.length > 0 then
    let d1 : Disk := { d with blocks := write_log start cache lh d.blocks }
    let d2 : Disk := { d1 with hdr := lh }
    let d3 : Disk := { d2 with blocks := install_trans start lh d2.blocks }
    { d3 with hdr := [] }
  else
    d

/-! ## In-memory log state and the transaction operations -/

/-- In-memory `struct log` (log.c:40-49), minus the spinlock and `dev`.
`lh` is the meaningful prefix of `log.lh.block` (`log.lh.n = lh.length`);
`outstanding` is a C `int`, so it is `Int` here. -/
structure LogSt where
  start : Nat
  size : Nat
  outstanding : Int
  committing : Bool
  lh : List Nat
  deriving DecidableEq

/-- Pointwise update for pin-count maps (`Int`-valued, since `bunpin`
decrements freely). -/
def pupd (f : Nat → Int) (k : Nat) (v : Int) : Nat → Int :=
  fun x => if x = k then v else f x

/-- One pass through `begin_op`'s wait loop body (log.c:137-153): if a
commit is in progress, or admitting one more op could exhaust the log,
the caller sleeps (`none`); otherwise `outstanding` is incremented and
the op is admitted. -/
def begin_op_try (LOGSIZE MAXOPBLOCKS : Nat) (st : LogSt) : Option LogSt :=
  if st.committing then
    none
  else if (st.lh.length : Int) + (st.outstanding + 1) * MAXOPBLOCKS > LOGSIZE then
    none
  else
    some { st with outstanding := st.outstanding + 1 }

/-- The `while(1)` loop of `begin_op`, fuelled by the number of wakeups the
sleeping caller receives.  A wakeup — whatever its reason — re-enters the
condition check; `none` means the caller is still asleep after `fuel`
wakeups.  The loop never produces any other outcome. -/
def begin_op_loop (LOGSIZE MAXOPBLOCKS : Nat) : Nat → LogSt → Option LogSt
  | 0, _ => none
  | fuel + 1, st =>
      match begin_op_try LOGSIZE MAXOPBLOCKS st with
      | some st' => some st'
      | none => begin_op_loop LOGSIZE MAXOPBLOCKS fuel st

/-- What a caller of `begin_op` can observe.  The `failedAdmission`
constructor exists because the specification claims an explicit admission
failure is observable on cancellation; the source's `begin_op`
(log.c:137-153) returns `void` and loops until it admits, so the
translation below never produces it. -/
inductive BeginObs
  | admitted (st : LogSt)
  | stillWaiting
  | failedAdmission
  deriving DecidableEq

/-- The outcome a caller observes after entering `begin_op` and receiving
`fuel` wakeups. -/
def begin_op_observe (LOGSIZE MAXOPBLOCKS fuel : Nat) (st : LogSt) : BeginObs :=
  match begin_op_loop LOGSIZE MAXOPBLOCKS fuel st with
  | some st' => BeginObs.admitted st'
  | none => BeginObs.stillWaiting

/-- Function `log_write` (log.c:248-269) acting on the header and the pin counts.
Panics (`none`) if the header is at physical capacity or no transaction
is open.  Otherwise scans for the block number: if already present
(absorption) the state is unchanged (the slot is rewritten with the same
number and no pin is taken); if absent the number is appended at slot
`count` and the buffer is pinned (`bpin`, modelled from the spec as a
pin-count increment, the cache-eviction hold of §6). -/
def log_write (LOGSIZE : Nat) (st : LogSt) (pins : Nat → Int) (blockno : Nat) :
    Option (LogSt × (Nat → Int)) :=
  if st.lh.length ≥ LOGSIZE ∨ st.lh.length ≥ st.size - 1 then
    none
  else if st.outstanding < 1 then
    none
  else if blockno ∈ st.lh then
    some (st, pins)
  else
    some ({ st with lh := st.lh ++ [blockno] },
          pupd pins blockno (pins blockno + 1))

/-- Iterated `log_write`: `N` successive calls with the same block number within one
open transaction. -/
def log_write_iter (LOGSIZE : Nat) : Nat → LogSt × (Nat → Int) → Nat →
    Option (LogSt × (Nat → Int))
  | 0, s, _ => some s
  | n + 1, s, b =>
      (log_write LOGSIZE s.1 s.2 b).bind (fun s' => log_write_iter LOGSIZE n s' b)

/-- The pin-count component of `install_trans`'s loop (log.c:75-90): when
`recovering == 0` each iteration `bunpin`s the destination buffer
(modelled from the spec as a pin-count decrement); when recovering, no
unpin happens.  The block-map component of the same loop is
`installFrom` above. -/
def unpinFrom (pins : Nat → Int) : List Nat → (Nat → Int)
  | [] => pins
  | b :: rest => unpinFrom (pupd pins b (pins b - 1)) rest

/-- Pin counts after `install_trans(recovering)`. -/
def install_trans_pins (recovering : Bool) (lh : List Nat) (pins : Nat → Int) :
    Nat → Int :=
  if recovering then pins else unpinFrom pins lh

/-- The whole system the log touches: in-memory log state, live buffer
payloads (`cache`), pin counts, and the disk. -/
structure Sys where
  st : LogSt
  cache : Nat → Nat
  pins : Nat → Int
  disk : Disk

/-- Function `commit` (log.c:219-229) on the whole system: the disk goes through
the four phases of `commit`, the pins of the logged blocks are released
by the `install_trans(0)` pass, and the in-memory header is cleared. -/
def commit_sys (s : Sys) : Sys :=
  if s.st.lh.length > 0 then
    { s with
      st := { s.st with lh := [] },
      disk := commit s.st.start s.st.lh s.cache s.disk,
      pins := install_trans_pins false s.st.lh s.pins }
  else
    s

/-- Lock/wakeup events `end_op` performs, in program order. -/
inductive Ev
  | acquire
  | release
  | wakeup
  | runCommit
  deriving DecidableEq

/-- Function `end_op` (log.c:164-193).  Decrements `outstanding`; panics (`none`)
if a commit is in progress.  If this caller was the last outstanding op
it becomes the sole committer: sets `committing`, releases the lock, runs
`commit`, re-acquires, clears `committing` and wakes all waiters.
Otherwise it wakes waiters (capacity has shrunk) and returns.  The result
carries the new system, the `do_commit` flag, and the event trace. -/
def end_op (s : Sys) : Option (Sys × Bool × List Ev) :=
  if s.st.committing then
    none
  else if s.st.outstanding - 1 = 0 then
    some ({ commit_sys { s with
              st := { s.st with
                      outstanding := s.st.outstanding - 1,
                      committing := true } } with
            st := { (commit_sys { s with
              st := { s.st with
                      outstanding := s.st.outstanding - 1,
                      committing := true } }).st with committing := false } },
          true,
          [Ev.acquire, Ev.release, Ev.runCommit, Ev.acquire, Ev.wakeup, Ev.release])
  else
    some ({ s with st := { s.st with outstanding := s.st.outstanding - 1 } },
          false,
          [Ev.acquire, Ev.wakeup, Ev.release])

/-! ## Ghost admission protocol for the capacity invariant

The protocol state instruments the source's `outstanding` counter with the
remaining block budget of each open transaction: an admitted op starts
with `MAXOPBLOCKS` reserved slots and consumes one for every block number
it newly appends; the claim's hypothesis that each op logs at most
`MAXOPBLOCKS` distinct blocks is the `0 < u` guard.  `lh` is the shared
in-memory header. -/
inductive Reach (LOGSIZE MAXOPBLOCKS : Nat) : List Nat → List Nat → Prop where
  | init : Reach LOGSIZE MAXOPBLOCKS [] []
  | begin {lh opens} :
      Reach LOGSIZE MAXOPBLOCKS lh opens →
      lh.length + (opens.length + 1) * MAXOPBLOCKS ≤ LOGSIZE →
      Reach LOGSIZE MAXOPBLOCKS lh (MAXOPBLOCKS :: opens)
  | logNew {lh pre post u b} :
      Reach LOGSIZE MAXOPBLOCKS lh (pre ++ u :: post) →
      0 < u → b ∉ lh →
      Reach LOGSIZE MAXOPBLOCKS (lh ++ [b]) (pre ++ (u - 1) :: post)
  | logAbsorb {lh opens b} :
      Reach LOGSIZE MAXOPBLOCKS lh opens →
      b ∈ lh →
      Reach LOGSIZE MAXOPBLOCKS lh opens
  | endNonlast {lh pre post u} :
      Reach LOGSIZE MAXOPBLOCKS lh (pre ++ u :: post) →
      pre ++ post ≠ [] →
      Reach LOGSIZE MAXOPBLOCKS lh (pre ++ post)
  | endLast {lh u} :
      Reach LOGSIZE MAXOPBLOCKS lh [u] →
      Reach LOGSIZE MAXOPBLOCKS [] []

/-- Slot-writing part of `write_head` (log.c:109-121): overwrite the first
`lh.length` of the old slot ints with the logged block numbers, keeping
the remaining slots' stale contents. -/
def writeSlots : List Int → List Nat → List Int
  | olds, [] => olds
  | [], _ :: _ => []
  | _ :: olds, b :: bs => (b : Int) :: writeSlots olds bs

/-- The raw header-block content `write_head` produces, as the ints of
`struct logheader { int n; int block[LOGSIZE]; }` (log.c:35-38): the
count, then the `LOGSIZE` slot ints of which the first `count` are
rewritten and the rest keep the previous block content `old`. -/
def write_head_block (old : List Int) (lh : List Nat) : List Int :=
  (lh.length : Int) :: writeSlots old.tail lh

/-! ## Theorems -/

@[simp] theorem upd_same (f : Nat → Nat) (k v : Nat) : upd f k v k = v := by
  simp [upd]

@[simp] theorem upd_other (f : Nat → Nat) (k v x : Nat) (h : x ≠ k) :
    upd f k v x = f x := by
  simp [upd, h]

/-! Basic pointwise lemmas about the two fold workers. -/

/-- A block that is not one of the written log slots is untouched by the
log-write phase. -/
theorem writeLogFrom_untouched (start : Nat) (cache : Nat → Nat) (lh : List Nat) :
    ∀ (bl : Nat → Nat) (tail b : Nat),
      (∀ i, i < lh.length → b ≠ start + (tail + i) + 1) →
      writeLogFrom start cache bl tail lh b = bl b := by
  induction lh with
  | nil => intro bl tail b _; rfl
  | cons x rest ih =>
      intro bl tail b hb
      have hb0 : b ≠ start + tail + 1 := by
        have := hb 0 (Nat.succ_pos _)
        simpa using this
      have : writeLogFrom start cache (upd bl (start + tail + 1) (cache x)) (tail + 1) rest b
          = upd bl (start + tail + 1) (cache x) b := by
        apply ih
        intro i hi
        have := hb (i + 1) (by simpa using Nat.succ_lt_succ hi)
        omega
      simp [writeLogFrom, this, upd, hb0]

/-- A block outside the home set is untouched by the install phase. -/
theorem installFrom_untouched (start : Nat) (lh : List Nat) :
    ∀ (bl : Nat → Nat) (tail b : Nat), b ∉ lh →
      installFrom start bl tail lh b = bl b := by
  induction lh with
  | nil => intro bl tail b _; rfl
  | cons x rest ih =>
      intro bl tail b hb
      have hbx : b ≠ x := fun h => hb (h ▸ List.mem_cons_self x rest)
      have hrest : b ∉ rest := fun h => hb (List.mem_cons_of_mem x h)
      simp [installFrom, ih _ _ _ hrest, upd, hbx]

/-- After the log-write phase, log slot `start + (tail + i) + 1` holds the
cache payload of the `i`-th logged block. -/
theorem writeLogFrom_slot (start : Nat) (cache : Nat → Nat) :
    ∀ (lh : List Nat) (bl : Nat → Nat) (tail i : Nat) (hi : i < lh.length),
      writeLogFrom start cache bl tail lh (start + (tail + i) + 1)
        = cache (lh.get ⟨i, hi⟩) := by
  intro lh
  induction lh with
  | nil => intro bl tail i hi; exact absurd hi (Nat.not_lt_zero i)
  | cons x rest ih =>
      intro bl tail i hi
      cases i with
      | zero =>
          have huntouched :
              writeLogFrom start cache (upd bl (start + tail + 1) (cache x))
                (tail + 1) rest (start + tail + 1)
              = upd bl (start + tail + 1) (cache x) (start + tail + 1) := by
            apply writeLogFrom_untouched
            intro j _
            omega
          simp [writeLogFrom, huntouched, upd]
      | succ j =>
          have hj : j < rest.length := Nat.lt_of_succ_lt_succ hi
          have harith : start + (tail + (j + 1)) + 1 = start + ((tail + 1) + j) + 1 := by
            omega
          simp only [writeLogFrom, harith,
            ih (upd bl (start + tail + 1) (cache x)) (tail + 1) j hj]
          rfl

/-- After the install phase over a duplicate-free header whose home blocks
avoid the log-slot addresses, home block `lh[i]` holds what log slot
`start + (tail + i) + 1` held before the phase started. -/
theorem installFrom_home (start : Nat) :
    ∀ (lh : List Nat) (bl : Nat → Nat) (tail : Nat), lh.Nodup →
      (∀ b ∈ lh, ∀ j, j < lh.length → b ≠ start + (tail + j) + 1) →
      ∀ (i : Nat) (hi : i < lh.length),
        installFrom start bl tail lh (lh.get ⟨i, hi⟩) = bl (start + (tail + i) + 1) := by
  intro lh
  induction lh with
  | nil => intro bl tail _ _ i hi; exact absurd hi (Nat.not_lt_zero i)
  | cons x rest ih =>
      intro bl tail hnd hdisj i hi
      have hxrest : x ∉ rest := (List.nodup_cons.mp hnd).1
      have hndrest : rest.Nodup := (List.nodup_cons.mp hnd).2
      cases i with
      | zero =>
          have : installFrom start (upd bl x (bl (start + tail + 1))) (tail + 1) rest x
              = upd bl x (bl (start + tail + 1)) x :=
            installFrom_untouched start rest _ _ _ hxrest
          simp [installFrom, this, upd]
      | succ j =>
          have hj : j < rest.length := Nat.lt_of_succ_lt_succ hi
          have hdisj' : ∀ b ∈ rest, ∀ j', j' < rest.length →
              b ≠ start + ((tail + 1) + j') + 1 := by
            intro b hb j' hj' hEq
            exact hdisj b (List.mem_cons_of_mem x hb) (j' + 1)
              (by simpa using Nat.succ_lt_succ hj') (by omega)
          have hstep := ih (upd bl x (bl (start + tail + 1))) (tail + 1)
            hndrest hdisj' j hj
          have hxslot : start + ((tail + 1) + j) + 1 ≠ x := by
            intro hEq
            exact hdisj x (List.mem_cons_self x rest) (j + 1)
              (by simpa using Nat.succ_lt_succ hj) (by omega)
          have harith : start + (tail + (j + 1)) + 1 = start + ((tail + 1) + j) + 1 := by
            omega
          simp only [installFrom, List.get_cons_succ, hstep, harith, upd, if_neg hxslot]

/-- The admission invariant: the logged count plus every open
transaction's remaining reservation fits in the log, and no reservation
exceeds the per-op maximum. -/
theorem reach_inv (LOGSIZE MAXOPBLOCKS : Nat) :
    ∀ {lh opens}, Reach LOGSIZE MAXOPBLOCKS lh opens →
      lh.length + opens.sum ≤ LOGSIZE ∧ ∀ u ∈ opens, u ≤ MAXOPBLOCKS := by
  intro lh opens h
  induction h with
  | init => simp
  | @begin lh opens _ hcap ih =>
      obtain ⟨hsum, hball⟩ := ih
      have hbound : _ ≤ _ := List.sum_le_card_nsmul _ MAXOPBLOCKS hball
      rw [smul_eq_mul] at hbound
      have hmul : (opens.length + 1) * MAXOPBLOCKS
          = opens.length * MAXOPBLOCKS + MAXOPBLOCKS := by ring
      constructor
      · simp only [List.sum_cons]
        omega
      · intro u hu
        rcases List.mem_cons.mp hu with h | h
        · omega
        · exact hball u h
  | @logNew lh pre post u b _ hu _ ih =>
      obtain ⟨hsum, hball⟩ := ih
      simp only [List.sum_append, List.sum_cons, List.length_append,
        List.length_cons, List.length_nil] at hsum ⊢
      constructor
      · omega
      · intro v hv
        rcases List.mem_append.mp hv with h | h
        · exact hball v (List.mem_append.mpr (Or.inl h))
        · rcases List.mem_cons.mp h with h | h
          · have := hball u (List.mem_append.mpr (Or.inr (List.mem_cons_self _ _)))
            omega
          · exact hball v (List.mem_append.mpr (Or.inr (List.mem_cons_of_mem _ h)))
  | logAbsorb _ _ ih => exact ih
  | endNonlast _ _ ih =>
      obtain ⟨hsum, hball⟩ := ih
      simp only [List.sum_append, List.sum_cons] at hsum ⊢
      constructor
      · omega
      · intro v hv
        rcases List.mem_append.mp hv with h | h
        · exact hball v (List.mem_append.mpr (Or.inl h))
        · exact hball v (List.mem_append.mpr (Or.inr (List.mem_cons_of_mem _ h)))
  | endLast _ _ => simp

/-- A successful pass through `begin_op`'s loop body means no commit was
in progress, the capacity reservation held, and `outstanding` was
incremented — and nothing else changed. -/
theorem begin_op_try_spec (LOGSIZE MAXOPBLOCKS : Nat) (st st' : LogSt)
    (h : begin_op_try LOGSIZE MAXOPBLOCKS st = some st') :
    st.committing = false ∧
    (st.lh.length : Int) + (st.outstanding + 1) * MAXOPBLOCKS ≤ LOGSIZE ∧
    st' = { st with outstanding := st.outstanding + 1 } := by
  by_cases hc : st.committing = true
  · unfold begin_op_try at h
    rw [if_pos hc] at h
    exact absurd h (by simp)
  · by_cases hcap : (st.lh.length : Int) + (st.outstanding + 1) * MAXOPBLOCKS > LOGSIZE
    · unfold begin_op_try at h
      rw [if_neg hc, if_pos hcap] at h
      exact absurd h (by simp)
    · unfold begin_op_try at h
      rw [if_neg hc, if_neg hcap] at h
      exact ⟨by simpa using hc, by omega, (Option.some.inj h).symm⟩

/-- A successful `log_write` requires room in the log and an open
transaction. -/
theorem log_write_guards (LOGSIZE : Nat) (st : LogSt) (pins : Nat → Int)
    (b : Nat) (s' : LogSt × (Nat → Int))
    (h : log_write LOGSIZE st pins b = some s') :
    st.lh.length < LOGSIZE ∧ st.lh.length < st.size - 1 ∧ 1 ≤ st.outstanding := by
  by_cases hfull : st.lh.length ≥ LOGSIZE ∨ st.lh.length ≥ st.size - 1
  · unfold log_write at h
    rw [if_pos hfull] at h
    exact absurd h (by simp)
  · by_cases hout : st.outstanding < 1
    · unfold log_write at h
      rw [if_neg hfull, if_pos hout] at h
      exact absurd h (by simp)
    · push_neg at hfull
      exact ⟨hfull.1, hfull.2, by omega⟩

/-- An absorbed `log_write` (block already logged) changes nothing: the
slot is rewritten with the same block number and no pin is taken. -/
theorem log_write_absorbed (LOGSIZE : Nat) (st : LogSt) (pins : Nat → Int)
    (b : Nat) (hb : b ∈ st.lh) (s' : LogSt × (Nat → Int))
    (h : log_write LOGSIZE st pins b = some s') :
    s' = (st, pins) := by
  by_cases hfull : st.lh.length ≥ LOGSIZE ∨ st.lh.length ≥ st.size - 1
  · unfold log_write at h
    rw [if_pos hfull] at h
    exact absurd h (by simp)
  · by_cases hout : st.outstanding < 1
    · unfold log_write at h
      rw [if_neg hfull, if_pos hout] at h
      exact absurd h (by simp)
    · unfold log_write at h
      rw [if_neg hfull, if_neg hout, if_pos hb] at h
      exact (Option.some.inj h).symm

/-- A fresh `log_write` appends the block number at slot `count` and pins
the buffer. -/
theorem log_write_new (LOGSIZE : Nat) (st : LogSt) (pins : Nat → Int)
    (b : Nat) (hb : b ∉ st.lh) (s' : LogSt × (Nat → Int))
    (h : log_write LOGSIZE st pins b = some s') :
    s' = ({ st with lh := st.lh ++ [b] }, pupd pins b (pins b + 1)) := by
  by_cases hfull : st.lh.length ≥ LOGSIZE ∨ st.lh.length ≥ st.size - 1
  · unfold log_write at h
    rw [if_pos hfull] at h
    exact absurd h (by simp)
  · by_cases hout : st.outstanding < 1
    · unfold log_write at h
      rw [if_neg hfull, if_pos hout] at h
      exact absurd h (by simp)
    · unfold log_write at h
      rw [if_neg hfull, if_neg hout, if_neg hb] at h
      exact (Option.some.inj h).symm

/-- Iterating `log_write` on a block that is already logged never changes
the state, however many calls succeed. -/
theorem log_write_iter_absorbed (LOGSIZE b : Nat) :
    ∀ (n : Nat) (st : LogSt) (pins : Nat → Int), b ∈ st.lh →
      ∀ s', log_write_iter LOGSIZE n (st, pins) b = some s' → s' = (st, pins) := by
  intro n
  induction n with
  | zero =>
      intro st pins _ s' h
      simpa [log_write_iter] using h.symm
  | succ m ih =>
      intro st pins hb s' h
      simp only [log_write_iter] at h
      cases hlw : log_write LOGSIZE st pins b with
      | none => rw [hlw] at h; simp at h
      | some mid =>
          rw [hlw] at h
          simp only [Option.some_bind] at h
          have hmid : mid = (st, pins) := log_write_absorbed LOGSIZE st pins b hb mid hlw
          rw [hmid] at h
          exact ih st pins hb s' h

/-- Lemma: `unpinFrom` does not touch blocks outside the list. -/
theorem unpinFrom_not_mem :
    ∀ (lh : List Nat) (pins : Nat → Int) (x : Nat), x ∉ lh →
      unpinFrom pins lh x = pins x := by
  intro lh
  induction lh with
  | nil => intro pins x _; rfl
  | cons b rest ih =>
      intro pins x hx
      have hxb : x ≠ b := fun h => hx (h ▸ List.mem_cons_self b rest)
      have hxr : x ∉ rest := fun h => hx (List.mem_cons_of_mem b h)
      simp only [unpinFrom, ih _ _ hxr, pupd, if_neg hxb]

/-- Over a duplicate-free list, `unpinFrom` decrements each listed
block's pin count exactly once. -/
theorem unpinFrom_mem_nodup :
    ∀ (lh : List Nat) (pins : Nat → Int) (x : Nat), lh.Nodup → x ∈ lh →
      unpinFrom pins lh x = pins x - 1 := by
  intro lh
  induction lh with
  | nil => intro pins x _ hx; simp at hx
  | cons b rest ih =>
      intro pins x hnd hx
      have hbrest : b ∉ rest := (List.nodup_cons.mp hnd).1
      have hndrest : rest.Nodup := (List.nodup_cons.mp hnd).2
      rcases List.mem_cons.mp hx with hxb | hxr
      · subst hxb
        have := unpinFrom_not_mem rest (pupd pins x (pins x - 1)) x hbrest
        simp [unpinFrom, this, pupd]
      · have hxb : x ≠ b := fun h => hbrest (h ▸ hxr)
        have := ih (pupd pins b (pins b - 1)) x hndrest hxr
        simp only [unpinFrom, this, pupd, if_neg hxb]

/-- After a nonempty commit, each logged home block holds the cache
payload that was live at commit time. -/
theorem commit_home (start : Nat) (lh : List Nat) (cache : Nat → Nat) (d : Disk)
    (hnd : lh.Nodup)
    (hdisj : ∀ b ∈ lh, ∀ j, j < lh.length → b ≠ start + j + 1)
    (i : Nat) (hi : i < lh.length) :
    (commit start lh cache d).blocks (lh.get ⟨i, hi⟩) = cache (lh.get ⟨i, hi⟩) := by
  have hlen : lh.length > 0 := Nat.lt_of_le_of_lt (Nat.zero_le i) hi
  have hdisj0 : ∀ b ∈ lh, ∀ j, j < lh.length → b ≠ start + (0 + j) + 1 := by
    intro b hb j hj
    have := hdisj b hb j hj
    omega
  have hcommit_blocks : (commit start lh cache d).blocks
      = install_trans start lh (write_log start cache lh d.blocks) := by
    simp [commit, hlen]
  rw [hcommit_blocks]
  have hhome := installFrom_home start lh
    (write_log start cache lh d.blocks) 0 hnd hdisj0 i hi
  show installFrom start (write_log start cache lh d.blocks) 0 lh (lh.get ⟨i, hi⟩)
      = cache (lh.get ⟨i, hi⟩)
  rw [hhome]
  exact writeLogFrom_slot start cache lh d.blocks 0 i hi

/-- Lemma: `writeSlots` preserves the slot-array length when the entries fit. -/
theorem writeSlots_length :
    ∀ (bs : List Nat) (olds : List Int), bs.length ≤ olds.length →
      (writeSlots olds bs).length = olds.length := by
  intro bs
  induction bs with
  | nil => intro olds _; cases olds <;> rfl
  | cons b rest ih =>
      intro olds h
      cases olds with
      | nil => simp at h
      | cons o olds' =>
          simp only [writeSlots, List.length_cons]
          rw [ih olds' (by simpa using h)]

/-! ## Claim theorems -/

/-- C1: Atomicity before the commit point.  If a crash happens while the
on-disk header still holds `count = 0` from the prior commit — i.e. after
any prefix of the log-write phase but before the header-commit write —
then recovery leaves every affected block's home location (any block
outside the log-slot region, in particular every logged home block)
unchanged from before the transaction, and leaves the header empty. -/
theorem log_atomicity_before_commit
    (start k : Nat) (lh : List Nat) (cache bl0 : Nat → Nat) (b : Nat)
    (hk : k ≤ lh.length) (hb : b ∈ lh)
    (hdisj : ∀ i, i < lh.length → b ≠ start + i + 1) :
    (recover_from_log start
        ⟨[], write_log start cache (List.take k lh) bl0⟩).blocks b = bl0 b ∧
    (recover_from_log start
        ⟨[], write_log start cache (List.take k lh) bl0⟩).hdr = [] := by
  refine ⟨?_, rfl⟩
  show install_trans start [] (write_log start cache (List.take k lh) bl0) b = bl0 b
  show write_log start cache (List.take k lh) bl0 b = bl0 b
  apply writeLogFrom_untouched
  intro i hi
  have hilen : i < lh.length := by
    have := List.length_take_le k lh
    omega
  have := hdisj i hilen
  omega

/-- Witness for C1 at a concrete crash state: one of two logged blocks
already copied to its log slot, header still empty. -/
theorem log_atomicity_before_commit_witness :
    (recover_from_log 100
        ⟨[], write_log 100 (fun _ => 77) (List.take 1 [5, 9]) (fun x => x)⟩).blocks 5 = 5 ∧
    (recover_from_log 100
        ⟨[], write_log 100 (fun _ => 77) (List.take 1 [5, 9]) (fun x => x)⟩).hdr = [] :=
  log_atomicity_before_commit 100 1 [5, 9] (fun _ => 77) (fun x => x) 5
    (by decide) (by decide) (by decide)

/-- C2: Durability after the commit point.  If the on-disk header holds
the committed count and block list (crash strictly after the
header-commit write, before the header-clear write), recovery copies log
slot `i` to home block `hdr[i]` for every `i < count` — each home exactly
once, since the header is duplicate-free — leaves every other block
alone, and persists an empty header. -/
theorem recovery_installs_committed
    (start : Nat) (d : Disk)
    (hnd : d.hdr.Nodup)
    (hdisj : ∀ b ∈ d.hdr, ∀ j, j < d.hdr.length → b ≠ start + j + 1) :
    (recover_from_log start d).hdr = [] ∧
    (∀ (i : Nat) (hi : i < d.hdr.length),
        (recover_from_log start d).blocks (d.hdr.get ⟨i, hi⟩) = d.blocks (start + i + 1)) ∧
    (∀ b, b ∉ d.hdr → (recover_from_log start d).blocks b = d.blocks b) := by
  refine ⟨rfl, ?_, ?_⟩
  · intro i hi
    have hdisj0 : ∀ b ∈ d.hdr, ∀ j, j < d.hdr.length → b ≠ start + (0 + j) + 1 := by
      intro b hb j hj
      have := hdisj b hb j hj
      omega
    have := installFrom_home start d.hdr d.blocks 0 hnd hdisj0 i hi
    simpa using this
  · intro b hb
    exact installFrom_untouched start d.hdr d.blocks 0 b hb

/-- Witness for C2: the spec's §8 scenario, header `count = 2` listing
blocks 5 and 9 with the log region at 100. -/
theorem recovery_installs_committed_witness :
    (recover_from_log 100 ⟨[5, 9], fun x => x + 1000⟩).hdr = [] ∧
    (∀ (i : Nat) (hi : i < ([5, 9] : List Nat).length),
        (recover_from_log 100 ⟨[5, 9], fun x => x + 1000⟩).blocks
            (([5, 9] : List Nat).get ⟨i, hi⟩) = (100 + i + 1) + 1000) ∧
    (∀ b, b ∉ ([5, 9] : List Nat) →
        (recover_from_log 100 ⟨[5, 9], fun x => x + 1000⟩).blocks b = b + 1000) :=
  recovery_installs_committed 100 ⟨[5, 9], fun x => x + 1000⟩ (by decide) (by decide)

/-- C7: Recovery idempotence.  Running recovery twice produces exactly the
disk produced by running it once: the second run reads an empty header,
installs nothing, and rewrites the already-empty header. -/
theorem recover_idempotent (start : Nat) (d : Disk) :
    recover_from_log start (recover_from_log start d) = recover_from_log start d :=
  rfl

/-- C3: Commit-engine structure.  `commit` is a no-op when nothing is
logged; otherwise, after the four phases run in order, the header is
clear, log slot `i` holds the live cache payload of logged block `i`
(phase 1), every logged home block holds that same payload (phases 2-3),
and every block that is neither a home nor a log slot is untouched. -/
theorem commit_engine_phases
    (start : Nat) (lh : List Nat) (cache : Nat → Nat) (d : Disk)
    (hnd : lh.Nodup)
    (hdisj : ∀ b ∈ lh, ∀ j, j < lh.length → b ≠ start + j + 1) :
    (lh = [] → commit start lh cache d = d) ∧
    (lh ≠ [] →
      (commit start lh cache d).hdr = [] ∧
      (∀ (i : Nat) (hi : i < lh.length),
          (commit start lh cache d).blocks (start + i + 1) = cache (lh.get ⟨i, hi⟩)) ∧
      (∀ (i : Nat) (hi : i < lh.length),
          (commit start lh cache d).blocks (lh.get ⟨i, hi⟩) = cache (lh.get ⟨i, hi⟩)) ∧
      (∀ b, b ∉ lh → (∀ j, j < lh.length → b ≠ start + j + 1) →
          (commit start lh cache d).blocks b = d.blocks b)) := by
  constructor
  · intro h
    simp [commit, h]
  · intro hne
    have hlen : lh.length > 0 := List.length_pos.mpr hne
    have hdisj0 : ∀ b ∈ lh, ∀ j, j < lh.length → b ≠ start + (0 + j) + 1 := by
      intro b hb j hj
      have := hdisj b hb j hj
      omega
    have hcommit_blocks : (commit start lh cache d).blocks
        = install_trans start lh (write_log start cache lh d.blocks) := by
      simp [commit, hlen]
    have hcommit_hdr : (commit start lh cache d).hdr = [] := by
      simp [commit, hlen]
    refine ⟨hcommit_hdr, ?_, ?_, ?_⟩
    · intro i hi
      rw [hcommit_blocks]
      have hslot_not_home : start + i + 1 ∉ lh := by
        intro hmem
        exact hdisj (start + i + 1) hmem i hi rfl
      have huntouched := installFrom_untouched start lh
        (write_log start cache lh d.blocks) 0 (start + i + 1) hslot_not_home
      have hslot := writeLogFrom_slot start cache lh d.blocks 0 i hi
      show install_trans start lh (write_log start cache lh d.blocks) (start + i + 1)
          = cache (lh.get ⟨i, hi⟩)
      rw [install_trans] at *
      rw [huntouched]
      show writeLogFrom start cache d.blocks 0 lh (start + i + 1) = cache (lh.get ⟨i, hi⟩)
      have harith : start + i + 1 = start + (0 + i) + 1 := by omega
      rw [harith]
      exact hslot
    · intro i hi
      exact commit_home start lh cache d hnd hdisj i hi
    · intro b hbhome hbslot
      rw [hcommit_blocks]
      have h1 := installFrom_untouched start lh
        (write_log start cache lh d.blocks) 0 b hbhome
      show installFrom start (write_log start cache lh d.blocks) 0 lh b = d.blocks b
      rw [h1]
      apply writeLogFrom_untouched
      intro i hi
      have := hbslot i hi
      omega

/-- Witness for C3 at a concrete two-block batch. -/
theorem commit_engine_phases_witness :
    (([] : List Nat) = [] →
        commit 100 [] (fun x => x + 50) ⟨[], fun x => x⟩ = ⟨[], fun x => x⟩) ∧
    (([5, 9] : List Nat) ≠ [] →
      (commit 100 [5, 9] (fun x => x + 50) ⟨[], fun x => x⟩).hdr = [] ∧
      (∀ (i : Nat) (hi : i < ([5, 9] : List Nat).length),
          (commit 100 [5, 9] (fun x => x + 50) ⟨[], fun x => x⟩).blocks (100 + i + 1)
            = (([5, 9] : List Nat).get ⟨i, hi⟩) + 50) ∧
      (∀ (i : Nat) (hi : i < ([5, 9] : List Nat).length),
          (commit 100 [5, 9] (fun x => x + 50) ⟨[], fun x => x⟩).blocks
              (([5, 9] : List Nat).get ⟨i, hi⟩)
            = (([5, 9] : List Nat).get ⟨i, hi⟩) + 50) ∧
      (∀ b, b ∉ ([5, 9] : List Nat) → (∀ j, j < ([5, 9] : List Nat).length → b ≠ 100 + j + 1) →
          (commit 100 [5, 9] (fun x => x + 50) ⟨[], fun x => x⟩).blocks b = b)) :=
  ⟨(commit_engine_phases 100 [] (fun x => x + 50) ⟨[], fun x => x⟩
      (by decide) (by decide)).1,
   (commit_engine_phases 100 [5, 9] (fun x => x + 50) ⟨[], fun x => x⟩
      (by decide) (by decide)).2⟩

/-- C4: Admission capacity invariant.  `begin_op` admits (incrementing
`outstanding`) exactly when no commit is in progress and
`count + (outstanding + 1) * MAXOPBLOCKS ≤ LOGSIZE`, and sleeps
otherwise; consequently along any protocol run in which every admitted
transaction logs at most `MAXOPBLOCKS` distinct blocks, the logged count
plus the remaining reservations of the open transactions never exceeds
`LOGSIZE`. -/
theorem admission_capacity_bound (LOGSIZE MAXOPBLOCKS : Nat) :
    (∀ st st', begin_op_try LOGSIZE MAXOPBLOCKS st = some st' →
        st.committing = false ∧
        (st.lh.length : Int) + (st.outstanding + 1) * MAXOPBLOCKS ≤ LOGSIZE ∧
        st' = { st with outstanding := st.outstanding + 1 }) ∧
    (∀ st, st.committing = true ∨
        (st.lh.length : Int) + (st.outstanding + 1) * MAXOPBLOCKS > LOGSIZE →
        begin_op_try LOGSIZE MAXOPBLOCKS st = none) ∧
    (∀ lh opens, Reach LOGSIZE MAXOPBLOCKS lh opens →
        lh.length + opens.sum ≤ LOGSIZE) := by
  refine ⟨fun st st' h => begin_op_try_spec LOGSIZE MAXOPBLOCKS st st' h, ?_, ?_⟩
  · intro st h
    unfold begin_op_try
    rcases h with hc | hcap
    · rw [if_pos hc]
    · by_cases hc : st.committing = true
      · rw [if_pos hc]
      · rw [if_neg hc, if_pos hcap]
  · intro lh opens h
    exact (reach_inv LOGSIZE MAXOPBLOCKS h).1

/-- Witness for C4: one admission from the empty state at
`LOGSIZE = 30`, `MAXOPBLOCKS = 10`, and the invariant at a state with one
open transaction holding its full reservation. -/
theorem admission_capacity_bound_witness :
    ((⟨100, 31, 0, false, []⟩ : LogSt).committing = false ∧
      ((([] : List Nat).length : Int) + ((0 : Int) + 1) * 10 ≤ 30) ∧
      (⟨100, 31, 1, false, []⟩ : LogSt)
        = { (⟨100, 31, 0, false, []⟩ : LogSt) with outstanding := (0 : Int) + 1 }) ∧
    ([] : List Nat).length + [10].sum ≤ 30 :=
  ⟨(admission_capacity_bound 30 10).1 ⟨100, 31, 0, false, []⟩ ⟨100, 31, 1, false, []⟩
      (by decide),
   (admission_capacity_bound 30 10).2.2 [] [10] (Reach.begin Reach.init (by decide))⟩

/-- C5: Log absorption.  Within one open transaction, `N ≥ 1` successful
`log_write` calls with one block number occupy exactly one log slot: the
first call appends the number at slot `count`, every repeat leaves the
state (and pins) untouched, the header list stays duplicate-free, and at
commit the home location receives exactly the cache payload live at
commit time. -/
theorem log_absorption (LOGSIZE N : Nat) (st : LogSt) (pins : Nat → Int) (b : Nat)
    (hN : 1 ≤ N) (hnd : st.lh.Nodup) (hnew : b ∉ st.lh)
    (s1 sN : LogSt × (Nat → Int))
    (h1 : log_write LOGSIZE st pins b = some s1)
    (hiter : log_write_iter LOGSIZE N (st, pins) b = some sN) :
    s1.1.lh = st.lh ++ [b] ∧
    s1.1.lh.length = st.lh.length + 1 ∧
    sN = s1 ∧
    sN.1.lh.Nodup ∧
    (∀ (start' : Nat) (cache : Nat → Nat) (d : Disk),
      (∀ a ∈ sN.1.lh, ∀ j, j < sN.1.lh.length → a ≠ start' + j + 1) →
      ∀ (i : Nat) (hi : i < sN.1.lh.length),
        (commit start' sN.1.lh cache d).blocks (sN.1.lh.get ⟨i, hi⟩)
          = cache (sN.1.lh.get ⟨i, hi⟩)) := by
  have hs1 := log_write_new LOGSIZE st pins b hnew s1 h1
  have hlh1 : s1.1.lh = st.lh ++ [b] := by rw [hs1]
  have hnd1 : s1.1.lh.Nodup := by
    rw [hlh1, List.nodup_append]
    refine ⟨hnd, List.nodup_singleton b, ?_⟩
    intro a ha hab
    rw [List.mem_singleton] at hab
    exact hnew (hab ▸ ha)
  have hsN : sN = s1 := by
    obtain ⟨m, rfl⟩ : ∃ m, N = m + 1 := ⟨N - 1, by omega⟩
    simp only [log_write_iter] at hiter
    rw [h1, Option.some_bind] at hiter
    have hbmem : b ∈ s1.1.lh := by
      rw [hlh1]
      exact List.mem_append.mpr (Or.inr (List.mem_singleton_self b))
    have := log_write_iter_absorbed LOGSIZE b m s1.1 s1.2 hbmem sN hiter
    simpa using this
  refine ⟨hlh1, by rw [hlh1]; simp, hsN, by rw [hsN]; exact hnd1, ?_⟩
  intro start' cache d hdisj i hi
  exact commit_home start' sN.1.lh cache d (by rw [hsN]; exact hnd1) hdisj i hi

/-- Witness for C5: three `log_write 5` calls in a transaction that has
already logged block 7. -/
theorem log_absorption_witness :
    ([7, 5] : List Nat) = [7] ++ [5] ∧
    ([7, 5] : List Nat).length = ([7] : List Nat).length + 1 ∧
    ((⟨100, 31, 1, false, [7, 5]⟩ : LogSt),
        pupd (fun _ => (0 : Int)) 5 ((fun _ => (0 : Int)) 5 + 1))
      = ((⟨100, 31, 1, false, [7, 5]⟩ : LogSt),
        pupd (fun _ => (0 : Int)) 5 ((fun _ => (0 : Int)) 5 + 1)) ∧
    ([7, 5] : List Nat).Nodup ∧
    (∀ (start' : Nat) (cache : Nat → Nat) (d : Disk),
      (∀ a ∈ ([7, 5] : List Nat), ∀ j, j < ([7, 5] : List Nat).length →
          a ≠ start' + j + 1) →
      ∀ (i : Nat) (hi : i < ([7, 5] : List Nat).length),
        (commit start' [7, 5] cache d).blocks (([7, 5] : List Nat).get ⟨i, hi⟩)
          = cache (([7, 5] : List Nat).get ⟨i, hi⟩)) :=
  log_absorption 30 3 ⟨100, 31, 1, false, [7]⟩ (fun _ => (0 : Int)) 5
    (by decide) (by decide) (by decide)
    (⟨100, 31, 1, false, [7, 5]⟩,
      pupd (fun _ => (0 : Int)) 5 ((fun _ => (0 : Int)) 5 + 1))
    (⟨100, 31, 1, false, [7, 5]⟩,
      pupd (fun _ => (0 : Int)) 5 ((fun _ => (0 : Int)) 5 + 1))
    rfl rfl

/-- C6: `end_op` contract.  `end_op` decrements `outstanding` and panics
iff a commit is in progress when it is called.  When the decrement
reaches zero the caller alone commits: the commit engine runs between
releasing and re-acquiring the state lock (the event trace), `committing`
is clear on return and waiters are woken.  When transactions remain open
no commit happens — only the capacity waiters are woken — so a commit
only ever runs with `outstanding = 0`. -/
theorem end_op_contract (s : Sys) :
    (end_op s = none ↔ s.st.committing = true) ∧
    (∀ s' didC evs, end_op s = some (s', didC, evs) →
      s'.st.outstanding = s.st.outstanding - 1 ∧
      (didC = true ↔ s.st.outstanding - 1 = 0) ∧
      (didC = true →
        s'.st.outstanding = 0 ∧
        s'.st.committing = false ∧
        s'.st.lh = [] ∧
        s'.disk = commit s.st.start s.st.lh s.cache s.disk ∧
        s'.pins = install_trans_pins false s.st.lh s.pins ∧
        evs = [Ev.acquire, Ev.release, Ev.runCommit, Ev.acquire, Ev.wakeup, Ev.release]) ∧
      (didC = false →
        s'.st = { s.st with outstanding := s.st.outstanding - 1 } ∧
        s'.cache = s.cache ∧ s'.pins = s.pins ∧ s'.disk = s.disk ∧
        evs = [Ev.acquire, Ev.wakeup, Ev.release])) := by
  constructor
  · unfold end_op
    by_cases hc : s.st.committing = true
    · rw [if_pos hc]
      simp [hc]
    · rw [if_neg hc]
      by_cases hz : s.st.outstanding - 1 = 0
      · rw [if_pos hz]
        simp [hc]
      · rw [if_neg hz]
        simp [hc]
  · intro s' didC evs h
    unfold end_op at h
    by_cases hc : s.st.committing = true
    · rw [if_pos hc] at h
      exact absurd h (by simp)
    · rw [if_neg hc] at h
      by_cases hz : s.st.outstanding - 1 = 0
      · rw [if_pos hz] at h
        have h' := Option.some.inj h
        have hs' : s' = ({ commit_sys { s with
            st := { s.st with
                    outstanding := s.st.outstanding - 1,
                    committing := true } } with
          st := { (commit_sys { s with
            st := { s.st with
                    outstanding := s.st.outstanding - 1,
                    committing := true } }).st with committing := false } } : Sys) :=
          (congrArg (fun p => p.1) h').symm
        have hdid : didC = true := (congrArg (fun p => p.2.1) h').symm
        have hevs : evs
            = [Ev.acquire, Ev.release, Ev.runCommit, Ev.acquire, Ev.wakeup, Ev.release] :=
          (congrArg (fun p => p.2.2) h').symm
        have hbool : s.st.committing = false := by simpa using hc
        by_cases hlen : s.st.lh.length > 0
        · refine ⟨?_, by simp [hdid, hz], ?_, ?_⟩
          · rw [hs']
            simp [commit_sys, hlen]
          · intro _
            refine ⟨?_, ?_, ?_, ?_, ?_, hevs⟩ <;>
              simp [hs', commit_sys, hlen, hz]
          · intro hF
            exact absurd (hdid ▸ hF) (by simp)
        · have hnil : s.st.lh = [] := List.length_eq_zero.mp (by omega)
          refine ⟨?_, by simp [hdid, hz], ?_, ?_⟩
          · rw [hs']
            simp [commit_sys, hlen]
          · intro _
            refine ⟨?_, ?_, ?_, ?_, ?_, hevs⟩ <;>
              simp [hs', commit_sys, hlen, hz, hnil, hbool, commit, install_trans_pins,
                unpinFrom]
          · intro hF
            exact absurd (hdid ▸ hF) (by simp)
      · rw [if_neg hz] at h
        have h' := Option.some.inj h
        have hs' : s' = ({ s with
            st := { s.st with outstanding := s.st.outstanding - 1 } } : Sys) :=
          (congrArg (fun p => p.1) h').symm
        have hdid : didC = false := (congrArg (fun p => p.2.1) h').symm
        have hevs : evs = [Ev.acquire, Ev.wakeup, Ev.release] :=
          (congrArg (fun p => p.2.2) h').symm
        refine ⟨by rw [hs'], by simp [hdid, hz], ?_, ?_⟩
        · intro hT
          exact absurd (hdid ▸ hT) (by simp)
        · intro _
          exact ⟨by rw [hs'], by rw [hs'], by rw [hs'], by rw [hs'], hevs⟩

/-- Witness for C6: the last outstanding op closes a one-block
transaction, triggering the commit path. -/
theorem end_op_contract_witness :
    ((⟨100, 31, 0, false, []⟩ : LogSt).outstanding = (1 : Int) - 1 ∧
     (true = true ↔ (1 : Int) - 1 = 0) ∧
     (true = true →
       (⟨100, 31, 0, false, []⟩ : LogSt).outstanding = 0 ∧
       (⟨100, 31, 0, false, []⟩ : LogSt).committing = false ∧
       (⟨100, 31, 0, false, []⟩ : LogSt).lh = [] ∧
       commit 100 [5] (fun _ => 50) ⟨[], fun x => x⟩
         = commit 100 [5] (fun _ => 50) ⟨[], fun x => x⟩ ∧
       install_trans_pins false [5] (fun _ => (1 : Int))
         = install_trans_pins false [5] (fun _ => (1 : Int)) ∧
       ([Ev.acquire, Ev.release, Ev.runCommit, Ev.acquire, Ev.wakeup, Ev.release] : List Ev)
         = [Ev.acquire, Ev.release, Ev.runCommit, Ev.acquire, Ev.wakeup, Ev.release]) ∧
     (true = false →
       (⟨100, 31, 0, false, []⟩ : LogSt)
         = { (⟨100, 31, 1, false, [5]⟩ : LogSt) with outstanding := (1 : Int) - 1 } ∧
       (fun _ : Nat => (50 : Nat)) = (fun _ : Nat => (50 : Nat)) ∧
       install_trans_pins false [5] (fun _ => (1 : Int)) = (fun _ => (1 : Int)) ∧
       commit 100 [5] (fun _ => 50) ⟨[], fun x => x⟩ = (⟨[], fun x => x⟩ : Disk) ∧
       ([Ev.acquire, Ev.release, Ev.runCommit, Ev.acquire, Ev.wakeup, Ev.release] : List Ev)
         = [Ev.acquire, Ev.wakeup, Ev.release])) :=
  (end_op_contract ⟨⟨100, 31, 1, false, [5]⟩, fun _ => 50, fun _ => 1, ⟨[], fun x => x⟩⟩).2
    ⟨⟨100, 31, 0, false, []⟩, fun _ => 50,
      install_trans_pins false [5] (fun _ => (1 : Int)),
      commit 100 [5] (fun _ => 50) ⟨[], fun x => x⟩⟩
    true
    [Ev.acquire, Ev.release, Ev.runCommit, Ev.acquire, Ev.wakeup, Ev.release]
    rfl

/-- C8 counterexample: the header block does not consist of a count field
followed by `LOG_CAPACITY - 1` block-number slots.  At
`LOG_CAPACITY = LOGSIZE = 30` the struct is a count plus 30 slot ints —
31 ints, not the 30 the claimed layout would give: writing a 2-entry
header into the 31-int header block yields 31 ints. -/
theorem header_layout_counterexample :
    (write_head_block (List.replicate 31 (0 : Int)) [5, 9]).length ≠ 1 + (30 - 1) := by
  decide

/-- C8 (amended): the header block consists of a count field followed by
`LOG_CAPACITY` block-number slots, of which only the first `count` are
meaningful; `0 ≤ count ≤ LOG_CAPACITY` in every reachable protocol state;
and `log_write` panics rather than appending whenever the header is at
the log's physical capacity, so a successful call keeps `count` within
both the struct bound and the on-disk region bound. -/
theorem header_capacity_amended (LOGSIZE MAXOPBLOCKS : Nat) :
    (∀ (old : List Int) (lh : List Nat),
        old.length = 1 + LOGSIZE → lh.length ≤ LOGSIZE →
        (write_head_block old lh).length = 1 + LOGSIZE) ∧
    (∀ lh opens, Reach LOGSIZE MAXOPBLOCKS lh opens → lh.length ≤ LOGSIZE) ∧
    (∀ (st : LogSt) (pins : Nat → Int) (b : Nat),
        st.lh.length ≥ LOGSIZE ∨ st.lh.length ≥ st.size - 1 →
        log_write LOGSIZE st pins b = none) ∧
    (∀ (st : LogSt) (pins : Nat → Int) (b : Nat) s',
        log_write LOGSIZE st pins b = some s' →
        s'.1.lh.length ≤ LOGSIZE ∧ s'.1.lh.length ≤ st.size - 1) := by
  refine ⟨?_, ?_, ?_, ?_⟩
  · intro old lh hold hlen
    unfold write_head_block
    rw [List.length_cons, writeSlots_length lh old.tail
      (by rw [List.length_tail]; omega)]
    rw [List.length_tail]
    omega
  · intro lh opens h
    have := (reach_inv LOGSIZE MAXOPBLOCKS h).1
    omega
  · intro st pins b hfull
    unfold log_write
    rw [if_pos hfull]
  · intro st pins b s' h
    obtain ⟨h1, h2, _⟩ := log_write_guards LOGSIZE st pins b s' h
    by_cases hb : b ∈ st.lh
    · have heq := log_write_absorbed LOGSIZE st pins b hb s' h
      rw [heq]
      show st.lh.length ≤ LOGSIZE ∧ st.lh.length ≤ st.size - 1
      omega
    · have heq := log_write_new LOGSIZE st pins b hb s' h
      rw [heq]
      show (st.lh ++ [b]).length ≤ LOGSIZE ∧ (st.lh ++ [b]).length ≤ st.size - 1
      simp only [List.length_append, List.length_cons, List.length_nil]
      omega

/-- Witness for C8 (amended) at `LOGSIZE = 30`, `MAXOPBLOCKS = 10`. -/
theorem header_capacity_amended_witness :
    (write_head_block (List.replicate 31 (0 : Int)) [5, 9]).length = 1 + 30 ∧
    ([5] : List Nat).length ≤ 30 ∧
    log_write 30 ⟨100, 31, 1, false, List.replicate 30 7⟩ (fun _ => (0 : Int)) 5 = none ∧
    (([7, 5] : List Nat).length ≤ 30 ∧
      ([7, 5] : List Nat).length ≤ 31 - 1) :=
  ⟨(header_capacity_amended 30 10).1 (List.replicate 31 (0 : Int)) [5, 9]
      (by decide) (by decide),
   (header_capacity_amended 30 10).2.1 [5] [9]
      (@Reach.logNew 30 10 [] [] [] 10 5
        (Reach.begin Reach.init (by decide)) (by decide) (by decide)),
   (header_capacity_amended 30 10).2.2.1 ⟨100, 31, 1, false, List.replicate 30 7⟩
      (fun _ => (0 : Int)) 5 (by decide),
   (header_capacity_amended 30 10).2.2.2 ⟨100, 31, 1, false, [7]⟩
      (fun _ => (0 : Int)) 5
      (⟨100, 31, 1, false, [7, 5]⟩,
        pupd (fun _ => (0 : Int)) 5 ((fun _ => (0 : Int)) 5 + 1))
      rfl⟩

/-- C9 counterexample: a caller blocked in `begin_op` by an in-progress
commit that receives five wakeups — an external cancellation signal
being one way to be woken — is still waiting with `outstanding`
unincremented: `begin_op` never returns the explicit admission failure
the claim asserts. -/
theorem begin_no_failure_counterexample :
    begin_op_observe 30 10 5 ⟨100, 31, 0, true, []⟩ = BeginObs.stillWaiting ∧
    begin_op_observe 30 10 5 ⟨100, 31, 0, true, []⟩ ≠ BeginObs.failedAdmission := by
  decide

/-- C9 (amended): a thread waiting inside `begin_op` that is awoken — by
a cancellation signal or anything else — re-checks the wait condition:
it admits (incrementing `outstanding`) exactly when no commit is in
progress and the capacity bound holds, and otherwise resumes waiting
without having incremented `outstanding`.  `begin_op` has no failure
return; callers only ever observe successful admission. -/
theorem begin_cancellation_amended (LOGSIZE MAXOPBLOCKS fuel : Nat) (st : LogSt) :
    (∀ st', begin_op_loop LOGSIZE MAXOPBLOCKS fuel st = some st' →
        st.committing = false ∧
        (st.lh.length : Int) + (st.outstanding + 1) * MAXOPBLOCKS ≤ LOGSIZE ∧
        st' = { st with outstanding := st.outstanding + 1 }) ∧
    begin_op_observe LOGSIZE MAXOPBLOCKS fuel st ≠ BeginObs.failedAdmission := by
  constructor
  · induction fuel with
    | zero =>
        intro st' h
        exact absurd h (by simp [begin_op_loop])
    | succ n ih =>
        intro st' h
        simp only [begin_op_loop] at h
        cases htry : begin_op_try LOGSIZE MAXOPBLOCKS st with
        | some st'' =>
            rw [htry] at h
            have hst : st'' = st' := by simpa using h
            exact hst ▸ begin_op_try_spec LOGSIZE MAXOPBLOCKS st st'' htry
        | none =>
            rw [htry] at h
            exact ih st' h
  · unfold begin_op_observe
    cases begin_op_loop LOGSIZE MAXOPBLOCKS fuel st <;> simp

/-- Witness for C9 (amended): an unobstructed caller is admitted on its
first pass, and no failure outcome is observed. -/
theorem begin_cancellation_amended_witness :
    ((⟨100, 31, 0, false, []⟩ : LogSt).committing = false ∧
     ((([] : List Nat).length : Int) + ((0 : Int) + 1) * 10 ≤ 30) ∧
     (⟨100, 31, 1, false, []⟩ : LogSt)
       = { (⟨100, 31, 0, false, []⟩ : LogSt) with outstanding := (0 : Int) + 1 }) ∧
    begin_op_observe 30 10 1 ⟨100, 31, 0, false, []⟩ ≠ BeginObs.failedAdmission :=
  ⟨(begin_cancellation_amended 30 10 1 ⟨100, 31, 0, false, []⟩).1
      ⟨100, 31, 1, false, []⟩ (by decide),
   (begin_cancellation_amended 30 10 1 ⟨100, 31, 0, false, []⟩).2⟩

/-- C10: Pin discipline.  Within one batch, `log_write` pins a buffer only
when its block number is newly appended — an absorbed repeat changes no
pin count — and the install pass run from `commit` (`recovering = 0`)
unpins each logged block exactly once (the header being duplicate-free),
while the recovery-time install pass (`recovering = 1`) unpins nothing. -/
theorem pin_discipline (LOGSIZE : Nat) (st : LogSt) (pins : Nat → Int) (b : Nat) :
    (∀ s', b ∈ st.lh → log_write LOGSIZE st pins b = some s' → s'.2 = pins) ∧
    (∀ s', b ∉ st.lh → log_write LOGSIZE st pins b = some s' →
        s'.2 b = pins b + 1 ∧ ∀ x, x ≠ b → s'.2 x = pins x) ∧
    (∀ lh : List Nat, lh.Nodup →
        (∀ x ∈ lh, install_trans_pins false lh pins x = pins x - 1) ∧
        (∀ x, x ∉ lh → install_trans_pins false lh pins x = pins x)) ∧
    install_trans_pins true st.lh pins = pins := by
  refine ⟨?_, ?_, ?_, rfl⟩
  · intro s' hb h
    rw [log_write_absorbed LOGSIZE st pins b hb s' h]
  · intro s' hb h
    rw [log_write_new LOGSIZE st pins b hb s' h]
    constructor
    · show pupd pins b (pins b + 1) b = pins b + 1
      simp [pupd]
    · intro x hx
      show pupd pins b (pins b + 1) x = pins x
      simp [pupd, hx]
  · intro lh hnd
    constructor
    · intro x hx
      exact unpinFrom_mem_nodup lh pins x hnd hx
    · intro x hx
      exact unpinFrom_not_mem lh pins x hx

/-- Witness for C10: an absorbed repeat on block 5 keeps the pin map, a
fresh write on block 6 bumps only block 6, and the commit-time install of
a two-block batch drops each pin once. -/
theorem pin_discipline_witness :
    ((fun _ : Nat => (3 : Int)) = (fun _ : Nat => (3 : Int))) ∧
    (pupd (fun _ => (3 : Int)) 6 ((fun _ => (3 : Int)) 6 + 1) 6
        = (fun _ : Nat => (3 : Int)) 6 + 1) ∧
    (∀ x ∈ ([5, 9] : List Nat),
        install_trans_pins false [5, 9] (fun _ => (3 : Int)) x
          = (fun _ : Nat => (3 : Int)) x - 1) ∧
    install_trans_pins true ([5] : List Nat) (fun _ => (3 : Int))
      = (fun _ : Nat => (3 : Int)) :=
  ⟨(pin_discipline 30 ⟨100, 31, 1, false, [5]⟩ (fun _ => (3 : Int)) 5).1
      (⟨100, 31, 1, false, [5]⟩, fun _ => (3 : Int)) (by decide) rfl,
   ((pin_discipline 30 ⟨100, 31, 1, false, [5]⟩ (fun _ => (3 : Int)) 6).2.1
      (⟨100, 31, 1, false, [5, 6]⟩,
        pupd (fun _ => (3 : Int)) 6 ((fun _ => (3 : Int)) 6 + 1))
      (by decide) rfl).1,
   ((pin_discipline 30 ⟨100, 31, 1, false, [5]⟩ (fun _ => (3 : Int)) 5).2.2.1
      [5, 9] (by decide)).1,
   (pin_discipline 30 ⟨100, 31, 1, false, [5]⟩ (fun _ => (3 : Int)) 5).2.2.2⟩

end XV6Log
